import Mathlib

/-!
Verification of the track-fitting data pipeline (`src/datasets/datasets.py`).

The development shallowly embeds the pieces of the pipeline that the claims
concern:

* `np_polyfit2` — the degree-2 least-squares fit `np.polyfit(u, v, 2, cov=True)`
  used by `TrackMLIterableDataset2._conformal_mapping`.  Coefficients are
  returned highest-degree first, exactly as numpy does.  The call raises
  (modelled by `Except.error ()`) when the normal matrix is singular (the
  covariance step inverts it) or when at most `order = deg + 1 = 3` points
  are supplied (numpy's `len(x) <= order` check for scaling the covariance).
* `conformal_mapping` — the estimator itself.
* the record model and the merge / group-by steps of
  `TrackMLIterableDataset2.__iter__` (the per-event track assembly),
* `runEvent` — the per-event generator loop with its quality filter,
* `per_worker` / `worker_bounds` — the DataLoader worker range split,
* `event_dir_name` / `parse_token` / `parse_digits` / `event_range` — event
  directory name construction and archive range discovery,
* `padSequence` and the two collate functions' mask and target handling,
* `toytrack_split_lens` / `randomSplit` — the 60/20/20 split of
  `ToyTrackDataModule.setup`.

Numeric data is embedded with exact arithmetic: the coordinate and kinematic
values carried by the records are rationals, and the two square roots taken by
the code (`R = sqrt(a² + b²)` and `pT = sqrt(px² + py²)`) land in `ℝ`.
-/

/-! ## The conformal-mapping transverse-momentum estimator

`_conformal_mapping(self, x, y, z)`:
```
r = x**2 + y**2
u = x / r
v = y / r
pp, vv = np.polyfit(u, v, 2, cov=True)
b = 0.5 / pp[2]
a = -pp[1] * b
R = np.sqrt(a**2 + b**2)
magnetic_field = 2.0
pT = 0.3 * magnetic_field * R  # in MeV
return pT / 1_000
```
-/

/-- The 3×3 determinant, rows listed left-to-right, top-to-bottom. -/
def det3 (a b c d e f g h i : ℚ) : ℚ :=
  a * (e * i - f * h) - b * (d * i - f * g) + c * (d * h - e * g)

/-- Embedding of `np.polyfit(u, v, 2, cov=True)`: least-squares coefficients of
`v ≈ p0·u² + p1·u + p2`, highest degree first, obtained from the normal
equations `AᵀA·c = Aᵀv` by Cramer's rule.  The call raises — `Except.error ()`
— when the covariance computation cannot proceed: a singular normal matrix
`AᵀA` (in particular fewer than 3 distinct `u` values), whose inverse numpy
takes for the covariance, or at most `order = deg + 1 = 3` sample points
(numpy's `len(x) <= order` check before scaling the covariance by
`resids / (len(x) - order)`). -/
def np_polyfit2 (u v : List ℚ) : Except Unit (ℚ × ℚ × ℚ) :=
  let s0 : ℚ := (u.length : ℚ)
  let s1 := u.sum
  let s2 := (u.map (fun x => x ^ 2)).sum
  let s3 := (u.map (fun x => x ^ 3)).sum
  let s4 := (u.map (fun x => x ^ 4)).sum
  let t0 := v.sum
  let t1 := (List.zipWith (fun x y => x * y) u v).sum
  let t2 := (List.zipWith (fun x y => x ^ 2 * y) u v).sum
  let det := det3 s4 s3 s2 s3 s2 s1 s2 s1 s0
  if u.length ≤ 3 ∨ det = 0 then Except.error ()
  else Except.ok (det3 t2 s3 s2 t1 s2 s1 t0 s1 s0 / det,
                  det3 s4 t2 s2 s3 t1 s1 s2 t0 s0 / det,
                  det3 s4 s3 t2 s3 s2 t1 s2 s1 t0 / det)

/-- Conformal coordinate `u = x / r` with `r = x**2 + y**2`, elementwise. -/
def confU (x y : List ℚ) : List ℚ :=
  List.zipWith (fun a b => a / (a ^ 2 + b ^ 2)) x y

/-- Conformal coordinate `v = y / r` with `r = x**2 + y**2`, elementwise. -/
def confV (x y : List ℚ) : List ℚ :=
  List.zipWith (fun a b => b / (a ^ 2 + b ^ 2)) x y

/-- Intercept term `b = 0.5 / pp[2]` — numpy's `pp[2]` is the *constant* coefficient. -/
def bOf (pp : ℚ × ℚ × ℚ) : ℚ := 0.5 / pp.2.2

/-- Center term `a = -pp[1] * b` — `pp[1]` is the linear coefficient. -/
def aOf (pp : ℚ × ℚ × ℚ) : ℚ := -pp.2.1 * bOf pp

/-- Momentum estimate `R = sqrt(a² + b²); pT = 0.3 * 2.0 * R; return pT / 1_000`. -/
noncomputable def estimateOf (pp : ℚ × ℚ × ℚ) : ℝ :=
  0.3 * 2.0 * Real.sqrt ((aOf pp : ℝ) ^ 2 + (bOf pp : ℝ) ^ 2) / 1000

/-- Embedding of `TrackMLIterableDataset2._conformal_mapping` (the `z` argument is unused,
as in the source). -/
noncomputable def conformal_mapping (x y z : List ℚ) : Except Unit ℝ :=
  (np_polyfit2 (confU x y) (confV x y)).map estimateOf

/-- The estimator as the claim words it: identical except that
`b = 0.5 / p₀` divides by the *quadratic* coefficient `pp[0]` instead of the
constant one.  Kept separate so it can be compared against the code's
`conformal_mapping`. -/
noncomputable def conformal_mapping_claimed (x y z : List ℚ) : Except Unit ℝ :=
  (np_polyfit2 (confU x y) (confV x y)).map (fun pp =>
    let b : ℚ := 0.5 / pp.1
    let a : ℚ := -pp.2.1 * b
    0.3 * 2.0 * Real.sqrt ((a : ℝ) ^ 2 + (b : ℝ) ^ 2) / 1000)

/-! Concrete evaluation input: five hits whose conformal images lie exactly on
the parabola `v = 3u² + 1`, at `u = -2, -1, 0, 1, 2`.  Inverting the conformal
map (`x = u/(u²+v²)`, `y = v/(u²+v²)`) gives the hit coordinates below. -/

/-- x-coordinates of the parabola hits. -/
def exX : List ℚ := [-2/173, -1/17, 0, 1/17, 2/173]

/-- y-coordinates of the parabola hits. -/
def exY : List ℚ := [13/173, 4/17, 1, 4/17, 13/173]

/-- z-coordinates of the parabola hits (unused by the fit). -/
def exZ : List ℚ := [0, 0, 0, 0, 0]

/-! ## Per-event record sets and track assembly

`TrackMLIterableDataset2.__iter__` loads four record sets per event; the
columns actually consumed are embedded.  The field names follow the TrackML
column names: `hits(hit_id, x, y, z)`, `particles(particle_id, px, py, pz,
nhits)`, `truth(hit_id, particle_id, tx, ty, tz)`. -/

/-- One row of the `hits` record set. -/
structure HitRow where
  hit_id : ℕ
  x : ℚ
  y : ℚ
  z : ℚ
deriving DecidableEq, Inhabited

/-- One row of the `particles` record set. -/
structure ParticleRow where
  particle_id : ℕ
  px : ℚ
  py : ℚ
  pz : ℚ
  nhits : ℕ
deriving DecidableEq, Inhabited

/-- One row of the `truth` record set. -/
structure TruthRow where
  hit_id : ℕ
  particle_id : ℕ
  tx : ℚ
  ty : ℚ
  tz : ℚ
deriving DecidableEq, Inhabited

/-- One row of the fully merged frame
(`pd.merge(pd.merge(truth, particles, on='particle_id'), hits, on='hit_id')`):
a truth row together with its matching particle row and hit row. -/
structure JRow where
  t : TruthRow
  p : ParticleRow
  h : HitRow
deriving DecidableEq, Inhabited

/-- Particle filter `particles = particles[particles['nhits'] >= 5]`. -/
def qualifying (ps : List ParticleRow) : List ParticleRow :=
  ps.filter (fun p => 5 ≤ p.nhits)

/-- Embedding of `pd.merge(truth, particles, on='particle_id')`: an inner join; pandas
keeps the left (truth) row order, pairing each truth row with every matching
particle row in right-frame order. -/
def mergeTP (truth : List TruthRow) (ps : List ParticleRow) :
    List (TruthRow × ParticleRow) :=
  truth.flatMap (fun tr =>
    (ps.filter (fun p => p.particle_id = tr.particle_id)).map (fun p => (tr, p)))

/-- Embedding of `pd.merge(·, hits, on='hit_id')`: same inner-join semantics. -/
def mergeH (rows : List (TruthRow × ParticleRow)) (hits : List HitRow) :
    List JRow :=
  rows.flatMap (fun tp =>
    (hits.filter (fun h => h.hit_id = tp.1.hit_id)).map (fun h => ⟨tp.1, tp.2, h⟩))

/-- The merged frame of one event, after the `nhits >= 5` particle filter. -/
def mergedRows (hits : List HitRow) (ps : List ParticleRow)
    (truth : List TruthRow) : List JRow :=
  mergeH (mergeTP truth (qualifying ps)) hits

/-- The distinct particle ids present in the merged frame. -/
def joinedPids (rows : List JRow) : List ℕ :=
  (rows.map (fun r => r.t.particle_id)).dedup

/-- Embedding of `merged_df.groupby('particle_id')`: one group per distinct particle id,
iterated in ascending key order (pandas sorts group keys), each group keeping
the merged frame's row order. -/
def groupsOf (rows : List JRow) : List (List JRow) :=
  (List.insertionSort (fun a b => a ≤ b) (joinedPids rows)).map
    (fun k => rows.filter (fun r => r.t.particle_id = k))

/-- The per-event groups fed to the fit/filter loop. -/
def eventGroups (hits : List HitRow) (ps : List ParticleRow)
    (truth : List TruthRow) : List (List JRow) :=
  groupsOf (mergedRows hits ps truth)

/-- The particle id of a group (all of its rows share it by construction). -/
def groupPid (g : List JRow) : ℕ :=
  ((g.head?.map (fun r => r.t.particle_id)).getD 0)

/-- First row of a group, `group[...].values[0]`. -/
def firstRow (g : List JRow) : JRow := g.head?.getD default

/-- Position sequence `inputs = group[['tx', 'ty', 'tz']].values`. -/
def positionsOf (g : List JRow) : List (ℚ × ℚ × ℚ) :=
  g.map (fun r => (r.t.tx, r.t.ty, r.t.tz))

/-- Target `target = group[['pT', 'pz']].values[0]` with
`pT = sqrt(px**2 + py**2)`. -/
noncomputable def targetOf (g : List JRow) : ℝ × ℚ :=
  (Real.sqrt (((firstRow g).p.px : ℝ) ^ 2 + ((firstRow g).p.py : ℝ) ^ 2),
   (firstRow g).p.pz)

/-- An assembled track: the position sequence and the `(pT, pz)` target. -/
structure Track where
  positions : List (ℚ × ℚ × ℚ)
  target : ℝ × ℚ

/-- The track assembled from one group. -/
noncomputable def toTrack (g : List JRow) : Track :=
  ⟨positionsOf g, targetOf g⟩

/-- All tracks assembled from one event's record sets (before the quality
filter). -/
noncomputable def assembleTracks (hits : List HitRow) (ps : List ParticleRow)
    (truth : List TruthRow) : List Track :=
  (eventGroups hits ps truth).map toTrack

/-! ## The streaming loop with its quality filter

For each group the source runs `self._conformal_mapping(x, y, z)` on the
group's `tx, ty` columns — an exception raised by the fit propagates out of
the generator, ending the event iteration — and yields
`(zxy, mask, target_tensor)` when `abs(conf_pt - target[0]) < tolerance`. -/

/-- The `np.polyfit` call performed for one group's positions. -/
def groupFit (g : List JRow) : Except Unit (ℚ × ℚ × ℚ) :=
  np_polyfit2 (confU (g.map (fun r => r.t.tx)) (g.map (fun r => r.t.ty)))
              (confV (g.map (fun r => r.t.tx)) (g.map (fun r => r.t.ty)))

/-- The ground-truth transverse momentum compared against the estimate:
`target_tensor[0].item()`. -/
noncomputable def targetPT (g : List JRow) : ℝ := (targetOf g).1

/-- What `yield (zxy, mask, target_tensor)` produces for one accepted group:
positions, an all-true mask of the same length, and the `(pT, pz)` target. -/
abbrev Yield := List (ℚ × ℚ × ℚ) × List Bool × (ℝ × ℚ)

/-- The yielded triple of one group. -/
noncomputable def yieldOf (g : List JRow) : Yield :=
  (positionsOf g, List.replicate g.length true, targetOf g)

section
open Classical

/-- The per-event loop of `TrackMLIterableDataset2.__iter__` over the groups:
returns the yielded triples in order, paired with `some ()` if a fit raised
(the exception escapes the generator, so later groups are never reached —
their yields are not produced).  A fit that succeeds with constant
coefficient `pp[2] = 0` makes `b = 0.5 / pp[2]` an IEEE infinity, so
`conf_pt` is infinite (or NaN), the comparison `error < tolerance` is false,
and the track is skipped with the loop continuing; that branch is modelled
explicitly. -/
noncomputable def runEvent (gs : List (List JRow)) (tol : ℝ) :
    List Yield × Option Unit :=
  match gs with
  | [] => ([], none)
  | g :: rest =>
    match groupFit g with
    | Except.error e => ([], some e)
    | Except.ok pp =>
      let y := runEvent rest tol
      if pp.2.2 = 0 then y
      else if |estimateOf pp - targetPT g| < tol then (yieldOf g :: y.1, y.2)
      else y

end

/-! Concrete groups used to evaluate the loop.  `goodRows` carries the
parabola hits above with a matching ground-truth momentum; `badRows` has five
hits but only two distinct `(x, y)` pairs, so its fit is degenerate. -/

/-- The particle row of the well-fitted group: `pT = 3/10000` exactly. -/
def goodP : ParticleRow := ⟨1, 3/10000, 0, 1, 5⟩

/-- A group whose fit succeeds and whose estimate matches its truth exactly. -/
def goodRows : List JRow :=
  [⟨⟨1, 1, -2/173, 13/173, 0⟩, goodP, ⟨1, 0, 0, 0⟩⟩,
   ⟨⟨2, 1, -1/17, 4/17, 0⟩, goodP, ⟨2, 0, 0, 0⟩⟩,
   ⟨⟨3, 1, 0, 1, 0⟩, goodP, ⟨3, 0, 0, 0⟩⟩,
   ⟨⟨4, 1, 1/17, 4/17, 0⟩, goodP, ⟨4, 0, 0, 0⟩⟩,
   ⟨⟨5, 1, 2/173, 13/173, 0⟩, goodP, ⟨5, 0, 0, 0⟩⟩]

/-- The particle row of the degenerate group. -/
def badP : ParticleRow := ⟨2, 0, 0, 0, 5⟩

/-- A group with five hits but only two distinct `(x, y)` pairs: its
normal matrix is singular and the fit raises. -/
def badRows : List JRow :=
  [⟨⟨1, 2, 1, 0, 0⟩, badP, ⟨1, 0, 0, 0⟩⟩,
   ⟨⟨2, 2, 1, 0, 0⟩, badP, ⟨2, 0, 0, 0⟩⟩,
   ⟨⟨3, 2, 1, 0, 0⟩, badP, ⟨3, 0, 0, 0⟩⟩,
   ⟨⟨4, 2, 0, 1, 0⟩, badP, ⟨4, 0, 0, 0⟩⟩,
   ⟨⟨5, 2, 0, 1, 0⟩, badP, ⟨5, 0, 0, 0⟩⟩]

/-! ## DataLoader worker range partitioning

```
per_worker = int(math.ceil((self.end - self.start) / float(worker_info.num_workers)))
worker_id = worker_info.id
iter_start = self.start + worker_id * per_worker
iter_end = min(iter_start + per_worker, self.end)
```
-/

/-- Embedding of `int(math.ceil((end - start) / float(N)))` — the ceiling division
`⌈(e − s)/N⌉` computed over `ℕ`. -/
def per_worker (s e N : ℕ) : ℕ := (e - s + (N - 1)) / N

/-- Bounds `(iter_start, iter_end)` of worker `i` among `N`. -/
def worker_bounds (s e N i : ℕ) : ℕ × ℕ :=
  (s + i * per_worker s e N, min (s + i * per_worker s e N + per_worker s e N) e)

/-- The event-id set iterated by worker `i`: `range(iter_start, iter_end)`. -/
def workerIds (s e N i : ℕ) : Finset ℕ :=
  Finset.Ico (worker_bounds s e N i).1 (worker_bounds s e N i).2

/-- The `worker_info is None` branch: the single consumer gets `(start, end)`. -/
def single_process_bounds (s e : ℕ) : ℕ × ℕ := (s, e)

/-! ## Event directory names and archive range discovery

```
event = f'event00000{i:02d}'
```
and
```
files = os.listdir(self.data_path)
files.sort()
if files:
    return int(files[0].split('-')[0][5:]), int(files[-1].split('-')[0][5:]) + 1
else:
    raise FileNotFoundError(...)
```
Names are modelled as character lists. -/

/-- The character of a decimal digit. -/
def digitChar (d : ℕ) : Char := Char.ofNat (48 + d)

/-- The decimal representation of a natural number (`str(n)` in Python). -/
def natRepr (n : ℕ) : List Char :=
  if n = 0 then ['0'] else ((Nat.digits 10 n).map digitChar).reverse

/-- Left-pad a string to width `w` with `c`. -/
def leftPad (w : ℕ) (c : Char) (s : List Char) : List Char :=
  List.replicate (w - s.length) c ++ s

/-- Python's `f'{i:02d}'`: the decimal form of `i`, zero-padded on the left
to at least two characters (wider numbers print in full). -/
def fmt02d (i : ℕ) : List Char := leftPad 2 '0' (natRepr i)

/-- The five characters stripped by `[5:]` — the `'event'` prefix token. -/
def eventStem : List Char := ['e', 'v', 'e', 'n', 't']

/-- Directory name `f'event00000{i:02d}'`. -/
def event_dir_name (i : ℕ) : List Char :=
  eventStem ++ ['0', '0', '0', '0', '0'] ++ fmt02d i

/-- Token `name.split('-')[0][5:]`. -/
def parse_token (name : List Char) : List Char :=
  (name.takeWhile (fun c => c ≠ '-')).drop 5

/-- Python's `int(...)` on a decimal digit string (leading zeros allowed). -/
def parse_digits (s : List Char) : ℕ :=
  s.foldl (fun a c => 10 * a + (c.toNat - 48)) 0

/-- The `w`-digit zero-padded decimal form of `i < 10^w`, most significant
digit first — the id token of an archive filename. -/
def padNum : ℕ → ℕ → List Char
  | 0, _ => []
  | w + 1, i => digitChar (i / 10 ^ w) :: padNum w (i % 10 ^ w)

/-- An archive directory entry: event id plus whatever follows the dash. -/
structure EventFile where
  id : ℕ
  suffix : List Char
deriving DecidableEq

/-- The filename of an archive entry: `'event' + <w-digit id> + '-' + suffix`. -/
def renderName (w : ℕ) (f : EventFile) : List Char :=
  eventStem ++ padNum w f.id ++ '-' :: f.suffix

/-- Python string comparison: lexicographic on code points. -/
def lexLe : List Char → List Char → Bool
  | [], _ => true
  | _ :: _, [] => false
  | a :: s, b :: t => if a < b then true else if a = b then lexLe s t else false

/-- The comparison used by `files.sort()`, as a relation. -/
def lexLeP (a b : List Char) : Prop := lexLe a b = true

instance : DecidableRel lexLeP :=
  fun a b => inferInstanceAs (Decidable (lexLe a b = true))

/-- Embedding of `TrackMLIterableDataset2._event_range`: sort the listing, parse the id of
the first and last entry, return `[start, last + 1)`; raise (`Except.error`)
on an empty listing. -/
def event_range (files : List (List Char)) : Except Unit (ℕ × ℕ) :=
  match List.insertionSort lexLeP files with
  | [] => Except.error ()
  | f :: rest =>
    Except.ok (parse_digits (parse_token f),
      parse_digits (parse_token ((f :: rest).getLast (List.cons_ne_nil f rest))) + 1)

/-! ## Batching: `pad_sequence`-based collate functions

`TMLcollate_fn` pads inputs and masks (`padding_value=0`, i.e. `False` for a
boolean mask) and stacks targets; `ToyTrackDataModule.collate_fn` pads with
the default padding value 0 and flattens the single-component targets with
`torch.cat(pt).squeeze()`. -/

/-- Embedding of `pad_sequence(ls, batch_first=True, padding_value=pad)`: every sequence
is right-padded to the batch maximum length. -/
def padSequence {α : Type} (pad : α) (ls : List (List α)) : List (List α) :=
  let m := (ls.map List.length).foldr max 0
  ls.map (fun l => l ++ List.replicate (m - l.length) pad)

/-- The mask output of `TrackMLDataModule.TMLcollate_fn`
(`pad_sequence(masks, batch_first=True, padding_value=0)`). -/
def TMLcollate_masks (ms : List (List Bool)) : List (List Bool) :=
  padSequence false ms

/-- The mask output of `ToyTrackDataModule.collate_fn`
(`pad_sequence(mask, batch_first=True)`, default padding value 0). -/
def toy_collate_masks (ms : List (List Bool)) : List (List Bool) :=
  padSequence false ms

/-- The maximum of a list of lengths. -/
def maxLen (Ls : List ℕ) : ℕ := Ls.foldr max 0

/-- Embedding of `torch.cat(ts, dim=0)` at the shape level, for same-rank tensors. -/
def catShapeDim0 (shapes : List (List ℕ)) : List ℕ :=
  ((shapes.map (fun s => s.headD 0)).sum) :: (shapes.headD []).tail

/-- Embedding of `Tensor.squeeze()` at the shape level: every size-1 dimension is
removed. -/
def squeezeShape (s : List ℕ) : List ℕ := s.filter (fun d => d ≠ 1)

/-- The shape of `torch.cat(pt).squeeze()` for a batch of `K` single-component
`[pt]` targets (each of shape `[1]`). -/
def toy_collate_targetShape (K : ℕ) : List ℕ :=
  squeezeShape (catShapeDim0 (List.replicate K [1]))

/-! ## The 60/20/20 split of `ToyTrackDataModule.setup`

```
train_len = int(len(self.dataset) * 0.6)
val_len = int(len(self.dataset) * 0.2)
test_len = len(self.dataset) - train_len - val_len
```
-/

/-- Lengths `(train_len, val_len, test_len)` for a dataset of size `K`:
`⌊0.6·K⌋`, `⌊0.2·K⌋` and the remainder. -/
def toytrack_split_lens (K : ℕ) : ℕ × ℕ × ℕ :=
  ((6 * K) / 10, (2 * K) / 10, K - (6 * K) / 10 - (2 * K) / 10)

/-- Embedding of `random_split(dataset, [t, v, rest])`: a permutation of the indices is cut
into three consecutive chunks of the requested lengths. -/
def randomSplit (perm : List ℕ) (t v : ℕ) : List ℕ × List ℕ × List ℕ :=
  (perm.take t, (perm.drop t).take v, perm.drop (t + v))

/-! Concrete record sets exercising the assembler: particle 1 has
`nhits = 9` recorded but only two truth rows; particle 2 has `nhits = 5`
recorded and no truth rows. -/

/-- Hits of the assembler example event. -/
def cexHits : List HitRow := [⟨1, 0, 0, 0⟩, ⟨2, 0, 0, 0⟩]

/-- Particles of the assembler example event. -/
def cexParticles : List ParticleRow := [⟨1, 0, 0, 0, 9⟩, ⟨2, 0, 0, 0, 5⟩]

/-- Truth rows of the assembler example event. -/
def cexTruth : List TruthRow := [⟨1, 1, 0, 0, 0⟩, ⟨2, 1, 1, 1, 0⟩]

/-! ## Helper lemmas: evaluating the fit on the concrete inputs -/

lemma confU_ex : confU exX exY = [-2, -1, 0, 1, 2] := by
  norm_num [confU, exX, exY]

lemma confV_ex : confV exX exY = [13, 4, 1, 4, 13] := by
  norm_num [confV, exX, exY]

lemma polyfit_ex : np_polyfit2 (confU exX exY) (confV exX exY) = Except.ok (3, 0, 1) := by
  rw [confU_ex, confV_ex]; norm_num [np_polyfit2, det3]

lemma estimateOf_ex : estimateOf (3, 0, 1) = 3 / 10000 := by
  have ha : aOf (3, 0, 1) = 0 := by norm_num [aOf, bOf]
  have hb : bOf (3, 0, 1) = 1 / 2 := by norm_num [bOf]
  have hs : ((0 : ℝ) ^ 2 + (1 / 2 : ℝ) ^ 2) = (1 / 2 : ℝ) ^ 2 := by norm_num
  rw [estimateOf, ha, hb]
  push_cast
  rw [hs, Real.sqrt_sq (by norm_num : (0 : ℝ) ≤ 1 / 2)]
  norm_num

lemma goodRows_tx : goodRows.map (fun r => r.t.tx) = exX := by
  norm_num [goodRows, exX, goodP]

lemma goodRows_ty : goodRows.map (fun r => r.t.ty) = exY := by
  norm_num [goodRows, exY, goodP]

lemma groupFit_good : groupFit goodRows = Except.ok (3, 0, 1) := by
  rw [groupFit, goodRows_tx, goodRows_ty, polyfit_ex]

lemma targetPT_good : targetPT goodRows = 3 / 10000 := by
  have h : targetPT goodRows =
      Real.sqrt (((3 / 10000 : ℚ) : ℝ) ^ 2 + ((0 : ℚ) : ℝ) ^ 2) := rfl
  rw [h, show (((3 / 10000 : ℚ) : ℝ) ^ 2 + ((0 : ℚ) : ℝ) ^ 2) =
      ((3 : ℝ) / 10000) ^ 2 by push_cast; ring]
  exact Real.sqrt_sq (by norm_num)

lemma groupFit_bad : groupFit badRows = Except.error () := by
  norm_num [groupFit, badRows, badP, np_polyfit2, det3, confU, confV]

section
open Classical

lemma runEvent_nil (tol : ℝ) : runEvent [] tol = ([], none) := rfl

lemma runEvent_cons_err (g : List JRow) (rest : List (List JRow)) (tol : ℝ)
    (he : groupFit g = Except.error ()) :
    runEvent (g :: rest) tol = ([], some ()) := by
  simp [runEvent, he]

lemma runEvent_cons_ok (g : List JRow) (rest : List (List JRow)) (tol : ℝ)
    (pp : ℚ × ℚ × ℚ) (hok : groupFit g = Except.ok pp) :
    runEvent (g :: rest) tol =
      if pp.2.2 = 0 then runEvent rest tol
      else if |estimateOf pp - targetPT g| < tol then
        (yieldOf g :: (runEvent rest tol).1, (runEvent rest tol).2)
      else runEvent rest tol := by
  simp [runEvent, hok]

lemma runEvent_cons_ok_snd (g : List JRow) (rest : List (List JRow)) (tol : ℝ)
    (pp : ℚ × ℚ × ℚ) (hok : groupFit g = Except.ok pp) :
    (runEvent (g :: rest) tol).2 = (runEvent rest tol).2 := by
  rw [runEvent_cons_ok g rest tol pp hok]
  by_cases hp2 : pp.2.2 = 0
  · rw [if_pos hp2]
  · rw [if_neg hp2]
    by_cases hacc : |estimateOf pp - targetPT g| < tol
    · rw [if_pos hacc]
    · rw [if_neg hacc]

end

/-! ## Claim C1 — the estimator's formula -/

/-- Claim C1 (counterexample): on the parabola hits, the code's estimator
(`b = 0.5 / pp[2]`, the constant coefficient) returns `3/10000`, while the
formula the claim states (`b = 0.5 / p₀`, the quadratic coefficient) gives
`1/10000`; the two disagree. -/
theorem conformal_mapping_claimed_cex :
    conformal_mapping exX exY exZ = Except.ok ((3 : ℝ) / 10000)
  ∧ conformal_mapping_claimed exX exY exZ = Except.ok ((1 : ℝ) / 10000)
  ∧ ((3 : ℝ) / 10000) ≠ ((1 : ℝ) / 10000) := by
  refine ⟨?_, ?_, by norm_num⟩
  · rw [conformal_mapping, polyfit_ex]
    simp only [Except.map]
    rw [estimateOf_ex]
  · rw [conformal_mapping_claimed, polyfit_ex]
    simp only [Except.map]
    congr 1
    rw [show ((-(0 : ℚ) * (0.5 / 3) : ℚ) : ℝ) ^ 2 + ((0.5 / 3 : ℚ) : ℝ) ^ 2 =
        ((1 : ℝ) / 6) ^ 2 by push_cast; norm_num]
    rw [Real.sqrt_sq (by norm_num : (0 : ℝ) ≤ 1 / 6)]
    norm_num

/-- Claim C1 (amended): for every track of hit positions, the estimator fits
`v = p₀u² + p₁u + p₂` over the conformal-mapped points `u = x/(x²+y²)`,
`v = y/(x²+y²)`, then sets `b = 0.5` divided by the *constant* coefficient
`p₂` (`pp[2]`; not the quadratic coefficient `p₀` as the claim stated),
`a = −p₁·b`, `R = sqrt(a² + b²)`, and returns `0.3 · 2.0 · R / 1000`. -/
theorem conformal_mapping_formula (x y z : List ℚ) :
    conformal_mapping x y z =
      (np_polyfit2 (List.zipWith (fun a b => a / (a ^ 2 + b ^ 2)) x y)
          (List.zipWith (fun a b => b / (a ^ 2 + b ^ 2)) x y)).map
        (fun pp =>
          0.3 * 2.0 *
            Real.sqrt (((-pp.2.1 * (0.5 / pp.2.2) : ℚ) : ℝ) ^ 2 +
              ((0.5 / pp.2.2 : ℚ) : ℝ) ^ 2) / 1000) := rfl

/-! ## Claim C2 — degenerate fits and the per-event loop -/

/-- Claim C2 (amended): a degenerate fit is *not* absorbed: the per-event loop
raises exactly when some group's fit raises (first conjunct); when the groups
before a degenerate one all fit, the loop produces only the yields of those
earlier groups and then the error escapes, so later groups are never reached
(second conjunct); a fit that succeeds with constant coefficient `pp[2] = 0`
(infinite estimate) is merely skipped and iteration continues (third
conjunct). -/
theorem degenerate_fit_propagates :
    (∀ (gs : List (List JRow)) (tol : ℝ),
        (runEvent gs tol).2 = some () ↔ ∃ g ∈ gs, groupFit g = Except.error ())
  ∧ (∀ (pre : List (List JRow)) (g : List JRow) (post : List (List JRow))
        (tol : ℝ),
        (∀ g' ∈ pre, ∃ pp, groupFit g' = Except.ok pp) →
        groupFit g = Except.error () →
        runEvent (pre ++ g :: post) tol = ((runEvent pre tol).1, some ()))
  ∧ (∀ (g : List JRow) (rest : List (List JRow)) (tol : ℝ) (pp : ℚ × ℚ × ℚ),
        groupFit g = Except.ok pp → pp.2.2 = 0 →
        runEvent (g :: rest) tol = runEvent rest tol) := by
  refine ⟨?_, ?_, ?_⟩
  · intro gs tol
    induction gs with
    | nil => simp [runEvent_nil]
    | cons g rest ih =>
      cases hfit : groupFit g with
      | error e =>
        cases e
        rw [runEvent_cons_err g rest tol hfit]
        constructor
        · intro _; exact ⟨g, by simp, hfit⟩
        · intro _; rfl
      | ok pp =>
        rw [runEvent_cons_ok_snd g rest tol pp hfit, ih]
        constructor
        · rintro ⟨g', hg', he⟩; exact ⟨g', List.mem_cons_of_mem g hg', he⟩
        · rintro ⟨g', hg', he⟩
          rcases List.mem_cons.mp hg' with h | h
          · subst h; rw [hfit] at he; cases he
          · exact ⟨g', h, he⟩
  · intro pre g post tol hpre hg
    induction pre with
    | nil =>
      rw [List.nil_append, runEvent_cons_err g post tol hg, runEvent_nil]
    | cons g' pre' ih =>
      obtain ⟨pp, hok⟩ := hpre g' (by simp)
      have ih' := ih (fun x hx => hpre x (List.mem_cons_of_mem g' hx))
      rw [List.cons_append, runEvent_cons_ok g' (pre' ++ g :: post) tol pp hok,
        runEvent_cons_ok g' pre' tol pp hok, ih']
      by_cases hp2 : pp.2.2 = 0
      · rw [if_pos hp2, if_pos hp2]
      · rw [if_neg hp2, if_neg hp2]
        by_cases hacc : |estimateOf pp - targetPT g'| < tol
        · rw [if_pos hacc, if_pos hacc]
        · rw [if_neg hacc, if_neg hacc]
  · intro g rest tol pp hok hp2
    rw [runEvent_cons_ok g rest tol pp hok, if_pos hp2]

/-- Claim C2 (counterexample): an event whose first group has five hits but
only two distinct `(x, y)` pairs — a degenerate fit — followed by a perfectly
fittable group.  The loop neither skips the bad group nor yields the good
one: it produces no yields and the exception escapes (`some ()`). -/
theorem degenerate_fit_not_skipped_cex :
    runEvent [badRows, goodRows] (1 / 100) = ([], some ()) :=
  runEvent_cons_err badRows [goodRows] (1 / 100) groupFit_bad

/-- Claim C2 (witness): the amended theorem applied to the concrete degenerate
group. -/
theorem degenerate_fit_propagates_witness :
    (runEvent [badRows] (1 / 100)).2 = some () :=
  (degenerate_fit_propagates.1 [badRows] (1 / 100)).mpr
    ⟨badRows, by simp, groupFit_bad⟩

/-! ## Claim C4 — the quality filter's acceptance condition -/

/-- Claim C4: a track whose fit succeeds (with finite estimate) is yielded if
and only if `|estimate − truth_pT| < tolerance`; in particular, when the
absolute error equals the tolerance exactly, the track is rejected. -/
theorem quality_filter_iff (g : List JRow) (tol : ℝ) (pp : ℚ × ℚ × ℚ)
    (hfit : groupFit g = Except.ok pp) (hp2 : pp.2.2 ≠ 0) :
    ((runEvent [g] tol).1 = [yieldOf g] ↔ |estimateOf pp - targetPT g| < tol)
  ∧ (|estimateOf pp - targetPT g| = tol → (runEvent [g] tol).1 = []) := by
  by_cases hacc : |estimateOf pp - targetPT g| < tol
  · have h : runEvent [g] tol = ([yieldOf g], none) := by
      rw [runEvent_cons_ok g [] tol pp hfit, if_neg hp2, if_pos hacc,
        runEvent_nil]
    rw [h]
    exact ⟨⟨fun _ => hacc, fun _ => rfl⟩,
      fun heq => absurd (heq ▸ hacc) (lt_irrefl tol)⟩
  · have h : runEvent [g] tol = ([], none) := by
      rw [runEvent_cons_ok g [] tol pp hfit, if_neg hp2, if_neg hacc,
        runEvent_nil]
    rw [h]
    constructor
    · constructor
      · intro hlist; exact absurd hlist (by simp)
      · intro hc; exact absurd hc hacc
    · intro _; rfl

/-- Claim C4 (witness): the filter theorem applied to the perfectly fitted
group, whose estimate equals its ground truth exactly, with the default
tolerance `0.01`. -/
theorem quality_filter_iff_witness :
    (runEvent [goodRows] (1 / 100)).1 = [yieldOf goodRows] :=
  (quality_filter_iff goodRows (1 / 100) (3, 0, 1) groupFit_good
      (by norm_num)).1.mpr
    (by rw [estimateOf_ex, targetPT_good]; norm_num)

/-! ## Claim C5 — the worker range partition -/

lemma le_mul_per_worker (s e N : ℕ) (hN : 1 ≤ N) :
    e - s ≤ N * per_worker s e N := by
  have h1 : N * ((e - s + (N - 1)) / N) + (e - s + (N - 1)) % N
      = e - s + (N - 1) := Nat.div_add_mod _ N
  have h2 : (e - s + (N - 1)) % N < N := Nat.mod_lt _ (by omega)
  unfold per_worker
  generalize (e - s + (N - 1)) / N = q at h1 ⊢
  generalize hr : (e - s + (N - 1)) % N = r at h1 h2
  generalize N * q = nq at h1 ⊢
  omega

lemma workerIds_disjoint_of_lt (s e N : ℕ) (i j : ℕ) (hij : i < j) :
    Disjoint (workerIds s e N i) (workerIds s e N j) := by
  rw [Finset.disjoint_left]
  intro x hx1 hx2
  simp only [workerIds, worker_bounds, Finset.mem_Ico] at hx1 hx2
  have hmul : (i + 1) * per_worker s e N ≤ j * per_worker s e N :=
    Nat.mul_le_mul_right _ (by omega)
  rw [add_one_mul] at hmul
  generalize i * per_worker s e N = ip at hx1 hmul
  generalize j * per_worker s e N = jp at hx2 hmul
  omega

/-- Claim C5 (amended): for every discovered range `[start, end)` and worker
count `N ≥ 1`, the per-worker sub-ranges `[start + i·span,
min(start + (i+1)·span, end))` with `span = ⌈(end−start)/N⌉` are pairwise
disjoint, their union is `[start, end)`, and each sub-range's length is at
most `span`; a shorter sub-range occurs only when `N` does not divide
`end − start`, and the lengths are non-increasing in the worker index (so the
shortened sub-ranges form a trailing block of workers — not necessarily just
the last worker).  With no worker context (`N = 1`), the sole consumer gets
the full range. -/
theorem worker_partition_correct (s e N : ℕ) (hN : 1 ≤ N) :
    ((Finset.range N).biUnion (workerIds s e N) = Finset.Ico s e)
  ∧ (∀ i, ∀ j, i ≠ j →
      Disjoint (workerIds s e N i) (workerIds s e N j))
  ∧ (∀ i, (workerIds s e N i).card ≤ per_worker s e N)
  ∧ (∀ i, i < N → (workerIds s e N i).card < per_worker s e N →
      ¬ (N ∣ (e - s)))
  ∧ (∀ i j, i ≤ j → (workerIds s e N j).card ≤ (workerIds s e N i).card)
  ∧ worker_bounds s e 1 0 = single_process_bounds s e := by
  have hNp : e - s ≤ N * per_worker s e N := le_mul_per_worker s e N hN
  refine ⟨?_, ?_, ?_, ?_, ?_, ?_⟩
  · ext x
    simp only [Finset.mem_biUnion, Finset.mem_range, workerIds, worker_bounds,
      Finset.mem_Ico]
    constructor
    · rintro ⟨i, hiN, hx1, hx2⟩
      have h1 : s ≤ s + i * per_worker s e N := Nat.le_add_right _ _
      have h2 : x < e := lt_of_lt_of_le hx2 (min_le_right _ _)
      exact ⟨le_trans h1 hx1, h2⟩
    · rintro ⟨hsx, hxe⟩
      have hL1 : 1 ≤ e - s := by omega
      have hp : 0 < per_worker s e N := by
        rcases Nat.eq_zero_or_pos (per_worker s e N) with h | h
        · rw [h, Nat.mul_zero] at hNp; omega
        · exact h
      refine ⟨(x - s) / per_worker s e N, ?_, ?_, ?_⟩
      · have hdm := Nat.div_add_mod (x - s) (per_worker s e N)
        have hlt : per_worker s e N * ((x - s) / per_worker s e N)
            < N * per_worker s e N := by
          generalize per_worker s e N * ((x - s) / per_worker s e N) = t at hdm ⊢
          omega
        rw [Nat.mul_comm N _] at hlt
        exact Nat.lt_of_mul_lt_mul_left hlt
      · have hdm := Nat.div_add_mod (x - s) (per_worker s e N)
        rw [Nat.mul_comm _ (per_worker s e N)]
        generalize per_worker s e N * ((x - s) / per_worker s e N) = t at hdm ⊢
        omega
      · have hdm := Nat.div_add_mod (x - s) (per_worker s e N)
        have hmod := Nat.mod_lt (x - s) hp
        rw [Nat.mul_comm _ (per_worker s e N)]
        generalize per_worker s e N * ((x - s) / per_worker s e N) = t at hdm ⊢
        omega
  · intro i j hij
    rcases lt_or_gt_of_ne hij with h | h
    · exact workerIds_disjoint_of_lt s e N i j h
    · exact (workerIds_disjoint_of_lt s e N j i h).symm
  · intro i
    rw [workerIds, Nat.card_Ico]
    simp only [worker_bounds]
    generalize i * per_worker s e N = ip
    omega
  · intro i hiN hlt hdvd
    obtain ⟨m, hm⟩ := hdvd
    have hpm : per_worker s e N = m := by
      unfold per_worker
      rw [hm, Nat.mul_add_div (by omega : 0 < N), Nat.div_eq_of_lt (by omega)]
      omega
    rw [workerIds, Nat.card_Ico] at hlt
    simp only [worker_bounds] at hlt
    have hmul : (i + 1) * per_worker s e N ≤ N * per_worker s e N :=
      Nat.mul_le_mul_right _ (by omega)
    rw [add_one_mul] at hmul
    rw [hpm] at hlt hmul
    generalize i * m = im at hlt hmul
    generalize N * m = nm at hm hmul
    omega
  · intro i j hij
    rw [workerIds, workerIds, Nat.card_Ico, Nat.card_Ico]
    simp only [worker_bounds]
    have hmul : i * per_worker s e N ≤ j * per_worker s e N :=
      Nat.mul_le_mul_right _ hij
    generalize i * per_worker s e N = ip at hmul ⊢
    generalize j * per_worker s e N = jp at hmul ⊢
    omega
  · simp only [worker_bounds, single_process_bounds, per_worker,
      Prod.mk.injEq]
    omega

/-- Claim C5 (counterexample): with range `[0, 1)` and `N = 3` workers,
`span = 1` and worker 1 — not the last worker — already gets an empty
(shorter) sub-range, refuting "a shorter one occurring only for the last
worker". -/
theorem worker_partition_cex :
    ¬ ((workerIds 0 1 3 1).card = per_worker 0 1 3 ∨ (1 : ℕ) = 3 - 1) := by
  decide

/-- Claim C5 (witness): the partition theorem applied to `[0, 10)` with three
workers. -/
theorem worker_partition_witness :
    (Finset.range 3).biUnion (workerIds 0 10 3) = Finset.Ico 0 10 :=
  (worker_partition_correct 0 10 3 (by norm_num)).1

/-! ## Claim C7 — collate masks -/

/-- Claim C7: for every batch of all-true masks of lengths `L₁..Lₖ`, both
collate functions produce a mask whose row `i` is `Lᵢ` true entries followed
by `max(L) − Lᵢ` padded false entries — so row `i` has exactly `Lᵢ` true and
`max(L) − Lᵢ` false entries. -/
theorem collate_mask_rows (Ls : List ℕ) :
    (TMLcollate_masks (Ls.map (fun L => List.replicate L true)) =
      Ls.map (fun L => List.replicate L true ++
        List.replicate (maxLen Ls - L) false))
  ∧ (toy_collate_masks (Ls.map (fun L => List.replicate L true)) =
      Ls.map (fun L => List.replicate L true ++
        List.replicate (maxLen Ls - L) false))
  ∧ (∀ L ∈ Ls,
      (List.replicate L true ++
        List.replicate (maxLen Ls - L) false).count true = L
    ∧ (List.replicate L true ++
        List.replicate (maxLen Ls - L) false).count false = maxLen Ls - L) := by
  have hpad : padSequence false (Ls.map (fun L => List.replicate L true)) =
      Ls.map (fun L => List.replicate L true ++
        List.replicate (maxLen Ls - L) false) := by
    simp only [padSequence, List.map_map]
    rw [show (List.length ∘ fun L : ℕ => List.replicate L true) = id by
      funext L; simp, List.map_id]
    congr 1
    funext L
    simp [Function.comp, maxLen]
  refine ⟨hpad, hpad, ?_⟩
  intro L _
  constructor
  · simp [List.count_append, List.count_replicate_self, List.count_replicate]
  · simp [List.count_append, List.count_replicate_self, List.count_replicate]

/-- Claim C7 (witness): the mask theorem applied to a concrete batch of
lengths `[2, 3]`, reading off the counts of the second row. -/
theorem collate_mask_rows_witness :
    (List.replicate 3 true ++
      List.replicate (maxLen [2, 3] - 3) false).count true = 3 :=
  ((collate_mask_rows [2, 3]).2.2 3 (by decide)).1

/-! ## Claim C8 — the synthetic-branch target shape -/

/-- Claim C8 (counterexample): a batch with exactly one sample: `squeeze()`
removes the singleton batch dimension, so the target tensor is 0-dimensional
(`[]`), not of shape `[1]`. -/
theorem toy_collate_target_shape_cex : toy_collate_targetShape 1 ≠ [1] := by
  decide

/-- Claim C8 (amended): for every batch of `K` single-component `[pT]`
targets, `torch.cat(pt).squeeze()` has shape `[K]` for every `K ≠ 1`, but
shape `[]` — a 0-dimensional scalar, not a length-1 vector — when the batch
contains exactly one sample. -/
theorem toy_collate_target_shape (K : ℕ) :
    toy_collate_targetShape K = if K = 1 then [] else [K] := by
  match K with
  | 0 => decide
  | 1 => decide
  | (n + 2) =>
    have h : n + 2 ≠ 1 := by omega
    simp [toy_collate_targetShape, squeezeShape, catShapeDim0,
      List.replicate_succ, List.map_replicate, List.sum_replicate, h]
    omega

/-! ## Claim C9 — the 60/20/20 split -/

/-- Claim C9: for every cached dataset of size `K`, the split assigns
`⌊0.6·K⌋` samples to train, `⌊0.2·K⌋` to validation and the whole remainder
to test; the three parts are disjoint, their lengths sum exactly to `K`, and
together they exhaust the index permutation; `K = 200` yields `120/40/40`. -/
theorem toytrack_split_correct (K : ℕ) (perm : List ℕ)
    (hlen : perm.length = K) (hnd : perm.Nodup) :
    (toytrack_split_lens K).1 = (6 * K) / 10
  ∧ (toytrack_split_lens K).2.1 = (2 * K) / 10
  ∧ (toytrack_split_lens K).1 + (toytrack_split_lens K).2.1 +
      (toytrack_split_lens K).2.2 = K
  ∧ ((randomSplit perm (toytrack_split_lens K).1
        (toytrack_split_lens K).2.1).1.length = (toytrack_split_lens K).1
    ∧ (randomSplit perm (toytrack_split_lens K).1
        (toytrack_split_lens K).2.1).2.1.length = (toytrack_split_lens K).2.1
    ∧ (randomSplit perm (toytrack_split_lens K).1
        (toytrack_split_lens K).2.1).2.2.length = (toytrack_split_lens K).2.2)
  ∧ ((randomSplit perm (toytrack_split_lens K).1
        (toytrack_split_lens K).2.1).1.Disjoint
      (randomSplit perm (toytrack_split_lens K).1
        (toytrack_split_lens K).2.1).2.1
    ∧ (randomSplit perm (toytrack_split_lens K).1
        (toytrack_split_lens K).2.1).1.Disjoint
      (randomSplit perm (toytrack_split_lens K).1
        (toytrack_split_lens K).2.1).2.2
    ∧ (randomSplit perm (toytrack_split_lens K).1
        (toytrack_split_lens K).2.1).2.1.Disjoint
      (randomSplit perm (toytrack_split_lens K).1
        (toytrack_split_lens K).2.1).2.2)
  ∧ ((randomSplit perm (toytrack_split_lens K).1
        (toytrack_split_lens K).2.1).1 ++
      (randomSplit perm (toytrack_split_lens K).1
        (toytrack_split_lens K).2.1).2.1 ++
      (randomSplit perm (toytrack_split_lens K).1
        (toytrack_split_lens K).2.1).2.2 = perm)
  ∧ toytrack_split_lens 200 = (120, 40, 40) := by
  have hunion : perm.take ((6 * K) / 10) ++
      ((perm.drop ((6 * K) / 10)).take ((2 * K) / 10) ++
        perm.drop ((6 * K) / 10 + (2 * K) / 10)) = perm := by
    rw [show perm.drop ((6 * K) / 10 + (2 * K) / 10) =
        (perm.drop ((6 * K) / 10)).drop ((2 * K) / 10) by
      rw [List.drop_drop, Nat.add_comm]]
    rw [List.take_append_drop, List.take_append_drop]
  have hnd2 := hnd
  rw [← hunion] at hnd2
  rcases List.nodup_append.mp hnd2 with ⟨hA, hBC, hdA⟩
  rcases List.nodup_append.mp hBC with ⟨hB, hC, hdBC⟩
  rcases List.disjoint_append_right.mp hdA with ⟨hdAB, hdAC⟩
  simp only [toytrack_split_lens, randomSplit]
  refine ⟨trivial, trivial, by omega, ⟨?_, ?_, ?_⟩, ⟨hdAB, hdAC, hdBC⟩, ?_,
    by decide⟩
  · rw [List.length_take, hlen]; omega
  · rw [List.length_take, List.length_drop, hlen]; omega
  · rw [List.length_drop, hlen]; omega
  · rw [← List.append_assoc] at hunion; exact hunion

/-- Claim C9 (witness): the split theorem applied to a dataset of size 10
with the identity permutation. -/
theorem toytrack_split_witness :
    (toytrack_split_lens 10).1 + (toytrack_split_lens 10).2.1 +
      (toytrack_split_lens 10).2.2 = 10 :=
  (toytrack_split_correct 10 (List.range 10) (List.length_range 10)
    (List.nodup_range 10)).2.2.1

/-! ## Claim C6 — the track assembler -/

lemma mem_mergedRows_nhits (hits : List HitRow) (ps : List ParticleRow)
    (truth : List TruthRow) (r : JRow) (hr : r ∈ mergedRows hits ps truth) :
    5 ≤ r.p.nhits := by
  simp only [mergedRows, mergeH, List.mem_flatMap, List.mem_map] at hr
  obtain ⟨tp, htp, h, _, rfl⟩ := hr
  simp only [mergeTP, List.mem_flatMap, List.mem_map] at htp
  obtain ⟨tr, _, p, hp, rfl⟩ := htp
  simp only [qualifying, List.mem_filter, decide_eq_true_eq] at hp
  exact hp.1.2

lemma filter_pid_ne_nil (rows : List JRow) (k : ℕ)
    (hk : k ∈ joinedPids rows) :
    rows.filter (fun r => r.t.particle_id = k) ≠ [] := by
  simp only [joinedPids, List.mem_dedup, List.mem_map] at hk
  obtain ⟨r, hr, hrk⟩ := hk
  intro hnil
  have hmem : r ∈ rows.filter (fun r => r.t.particle_id = k) :=
    List.mem_filter.mpr ⟨hr, by simp [hrk]⟩
  rw [hnil] at hmem
  cases hmem

lemma groupPid_filter (rows : List JRow) (k : ℕ)
    (hk : rows.filter (fun r => r.t.particle_id = k) ≠ []) :
    groupPid (rows.filter (fun r => r.t.particle_id = k)) = k := by
  cases hfil : rows.filter (fun r => r.t.particle_id = k) with
  | nil => exact absurd hfil hk
  | cons r rs =>
    have hr : r ∈ rows.filter (fun r => r.t.particle_id = k) := by
      rw [hfil]; exact List.mem_cons_self _ _
    have hpid := (List.mem_filter.mp hr).2
    simp only [decide_eq_true_eq] at hpid
    simp [groupPid, hfil, hpid]

lemma countP_pid_of_nodup (l : List ℕ) (hnd : l.Nodup) (k : ℕ) :
    l.countP (fun x => x = k) = if k ∈ l then 1 else 0 := by
  induction l with
  | nil => simp
  | cons a t ih =>
    rcases List.nodup_cons.mp hnd with ⟨hna, hnt⟩
    rw [List.countP_cons]
    by_cases hak : a = k
    · subst hak
      rw [ih hnt, if_neg hna, if_pos (List.mem_cons_self a t)]
      simp
    · rw [ih hnt]
      have hka : ¬(k = a) := fun h => hak h.symm
      simp [List.mem_cons, hak, hka]

/-- Claim C6 (amended): for every event's record sets, every merged row —
hence every emitted track — belongs to a particle whose *recorded* hit count
`nhits` is at least 5 (though the joined-row count, which is what the track's
length reflects, can be smaller); the assembler emits exactly one track per
particle id present in the joined rows (and none for qualifying particles
with no joined rows); each track's position-sequence length equals that
particle's joined-row count; and the target is
`(sqrt(px² + py²), pz)` taken from the group's first row. -/
theorem track_assembler_behavior (hits : List HitRow) (ps : List ParticleRow)
    (truth : List TruthRow) :
    (∀ g ∈ eventGroups hits ps truth, ∀ r ∈ g, 5 ≤ r.p.nhits)
  ∧ (∀ pid : ℕ, (eventGroups hits ps truth).countP
        (fun g => groupPid g = pid) =
      if pid ∈ (mergedRows hits ps truth).map (fun r => r.t.particle_id)
      then 1 else 0)
  ∧ (∀ g ∈ eventGroups hits ps truth, ∃ r0 rs, g = r0 :: rs
      ∧ g = (mergedRows hits ps truth).filter
          (fun r => r.t.particle_id = r0.t.particle_id)
      ∧ (toTrack g).positions.length = g.length
      ∧ (toTrack g).target =
          (Real.sqrt ((r0.p.px : ℝ) ^ 2 + (r0.p.py : ℝ) ^ 2), r0.p.pz)) := by
  have hperm : List.Perm
      (List.insertionSort (fun a b => a ≤ b)
        (joinedPids (mergedRows hits ps truth)))
      (joinedPids (mergedRows hits ps truth)) :=
    List.perm_insertionSort _ _
  have hnds : (List.insertionSort (fun a b => a ≤ b)
      (joinedPids (mergedRows hits ps truth))).Nodup :=
    hperm.nodup_iff.mpr (List.nodup_dedup _)
  refine ⟨?_, ?_, ?_⟩
  · intro g hg r hr
    simp only [eventGroups, groupsOf, List.mem_map] at hg
    obtain ⟨k, _, rfl⟩ := hg
    exact mem_mergedRows_nhits hits ps truth r (List.mem_filter.mp hr).1
  · intro pid
    simp only [eventGroups, groupsOf]
    rw [List.countP_map]
    have hfc : ∀ k ∈ List.insertionSort (fun a b => a ≤ b)
        (joinedPids (mergedRows hits ps truth)),
        ((fun g => decide (groupPid g = pid)) ∘
          (fun k => (mergedRows hits ps truth).filter
            (fun r => r.t.particle_id = k))) k = decide (k = pid) := by
      intro k hk
      have hk' : k ∈ joinedPids (mergedRows hits ps truth) :=
        hperm.mem_iff.mp hk
      simp only [Function.comp]
      rw [groupPid_filter _ _ (filter_pid_ne_nil _ _ hk')]
    rw [List.countP_eq_length_filter, List.filter_congr hfc,
      ← List.countP_eq_length_filter, countP_pid_of_nodup _ hnds pid]
    have hmem : pid ∈ List.insertionSort (fun a b => a ≤ b)
        (joinedPids (mergedRows hits ps truth)) ↔
        pid ∈ (mergedRows hits ps truth).map (fun r => r.t.particle_id) := by
      rw [hperm.mem_iff]
      exact List.mem_dedup
    by_cases hp : pid ∈ (mergedRows hits ps truth).map
        (fun r => r.t.particle_id)
    · rw [if_pos (hmem.mpr hp), if_pos hp]
    · rw [if_neg (fun hc => hp (hmem.mp hc)), if_neg hp]
  · intro g hg
    simp only [eventGroups, groupsOf, List.mem_map] at hg
    obtain ⟨k, hk, rfl⟩ := hg
    have hk' : k ∈ joinedPids (mergedRows hits ps truth) := hperm.mem_iff.mp hk
    cases hfil : (mergedRows hits ps truth).filter
        (fun r => r.t.particle_id = k) with
    | nil => exact absurd hfil (filter_pid_ne_nil _ _ hk')
    | cons r0 rs =>
      have hr0 : r0 ∈ (mergedRows hits ps truth).filter
          (fun r => r.t.particle_id = k) := by
        rw [hfil]; exact List.mem_cons_self _ _
      have hpid := (List.mem_filter.mp hr0).2
      simp only [decide_eq_true_eq] at hpid
      refine ⟨r0, rs, rfl, ?_, ?_, ?_⟩
      · rw [hpid]
        exact hfil.symm
      · simp [toTrack, positionsOf]
      · simp [toTrack, targetOf, firstRow]

/-- Claim C6 (counterexample): an event where particle 1 has `nhits = 9`
recorded but only two truth rows, and particle 2 has `nhits = 5` recorded but
no truth rows.  A track of length 2 (fewer than 5 associated hits) is
emitted for particle 1, and no track at all is emitted for the qualifying
particle 2 — refuting both "never emits a track for a particle with fewer
than 5 associated hits" and "exactly one track per qualifying
particle_id". -/
theorem track_assembler_cex :
    (eventGroups cexHits cexParticles cexTruth).map List.length = [2]
  ∧ (cexTruth.filter (fun r => r.particle_id = 1)).length = 2
  ∧ (∃ p ∈ cexParticles, p.particle_id = 2 ∧ 5 ≤ p.nhits)
  ∧ (eventGroups cexHits cexParticles cexTruth).countP
      (fun g => groupPid g = 2) = 0
  ∧ (assembleTracks cexHits cexParticles cexTruth).map
      (fun tr => tr.positions.length) = [2] := by
  refine ⟨by decide, by decide, by decide, by decide, ?_⟩
  show (List.map toTrack (eventGroups cexHits cexParticles cexTruth)).map
    (fun tr => tr.positions.length) = [2]
  rw [List.map_map]
  have hfun : ((fun tr => tr.positions.length) ∘ toTrack) =
      fun g : List JRow => g.length := by
    funext g
    simp [Function.comp, toTrack, positionsOf]
  rw [hfun]
  decide

/-- Claim C6 (witness): the assembler theorem applied to the concrete record
sets, showing exactly one group is emitted for particle id 1. -/
theorem track_assembler_witness :
    (eventGroups cexHits cexParticles cexTruth).countP
      (fun g => groupPid g = 1) = 1 := by
  have h := (track_assembler_behavior cexHits cexParticles cexTruth).2.1 1
  rw [if_pos (by decide)] at h
  exact h

/-! ## Claim C3 — event directory names versus the parsed id token -/

lemma digitChar_toNat (d : ℕ) (hd : d < 10) : (digitChar d).toNat = 48 + d := by
  interval_cases d <;> decide

lemma digitChar_ne_dash (d : ℕ) (hd : d < 10) : digitChar d ≠ '-' := by
  interval_cases d <;> decide

lemma natRepr_mem (i : ℕ) : ∀ c ∈ natRepr i, ∃ d, d < 10 ∧ c = digitChar d := by
  intro c hc
  rw [natRepr] at hc
  by_cases hi : i = 0
  · rw [if_pos hi] at hc
    simp only [List.mem_singleton] at hc
    exact ⟨0, by norm_num, by rw [hc]; rfl⟩
  · rw [if_neg hi, List.mem_reverse, List.mem_map] at hc
    obtain ⟨d, hd, rfl⟩ := hc
    exact ⟨d, Nat.digits_lt_base (by norm_num) hd, rfl⟩

lemma natRepr_length_eq (i : ℕ) (hi : i ≠ 0) :
    (natRepr i).length = Nat.log 10 i + 1 := by
  rw [natRepr, if_neg hi, List.length_reverse, List.length_map]
  exact Nat.digits_len 10 i (by norm_num) hi

lemma natRepr_len_le_two_iff (i : ℕ) : (natRepr i).length ≤ 2 ↔ i < 100 := by
  by_cases hi : i = 0
  · subst hi
    constructor
    · intro _; norm_num
    · intro _; decide
  · rw [natRepr_length_eq i hi,
      show (100 : ℕ) = 10 ^ 2 by norm_num,
      Nat.lt_pow_iff_log_lt (by norm_num) hi]
    omega

lemma natRepr_length_pos (i : ℕ) : 1 ≤ (natRepr i).length := by
  by_cases hi : i = 0
  · subst hi; decide
  · rw [natRepr_length_eq i hi]; omega

lemma parse_digits_zeros (k : ℕ) (s : List Char) :
    parse_digits (List.replicate k '0' ++ s) = parse_digits s := by
  induction k with
  | zero => rfl
  | succ n ih =>
    rw [List.replicate_succ, List.cons_append]
    have hstep : parse_digits ('0' :: (List.replicate n '0' ++ s)) =
        List.foldl (fun a c => 10 * a + (c.toNat - 48))
          (10 * 0 + ('0'.toNat - 48)) (List.replicate n '0' ++ s) := rfl
    rw [hstep, show (10 * 0 + ('0'.toNat - 48)) = 0 by decide]
    exact ih

lemma foldl_digitChars (l : List ℕ) (hl : ∀ d ∈ l, d < 10) : ∀ acc : ℕ,
    List.foldl (fun a c => 10 * a + (c.toNat - 48)) acc
      ((l.map digitChar).reverse) = acc * 10 ^ l.length + Nat.ofDigits 10 l := by
  induction l with
  | nil => intro acc; simp
  | cons d ds ih =>
    intro acc
    rw [List.map_cons, List.reverse_cons, List.foldl_append,
      ih (fun x hx => hl x (List.mem_cons_of_mem d hx)) acc]
    simp only [List.foldl_cons, List.foldl_nil]
    rw [digitChar_toNat d (hl d (List.mem_cons_self d ds)),
      Nat.add_sub_cancel_left, Nat.ofDigits_cons, List.length_cons, pow_succ]
    ring

lemma parse_digits_natRepr (i : ℕ) : parse_digits (natRepr i) = i := by
  by_cases hi : i = 0
  · subst hi; decide
  · rw [natRepr, if_neg hi]
    have h := foldl_digitChars (Nat.digits 10 i)
      (fun d hd => Nat.digits_lt_base (by norm_num) hd) 0
    rw [parse_digits, h, Nat.zero_mul, Nat.zero_add, Nat.ofDigits_digits]

lemma takeWhile_all {p : Char → Bool} (l : List Char)
    (h : ∀ x ∈ l, p x = true) : l.takeWhile p = l :=
  List.takeWhile_eq_self_iff.mpr h

lemma fmt02d_no_dash (i : ℕ) : ∀ c ∈ fmt02d i, (decide (c ≠ '-')) = true := by
  intro c hc
  rw [fmt02d, leftPad] at hc
  rcases List.mem_append.mp hc with h | h
  · rw [List.eq_of_mem_replicate h]; decide
  · obtain ⟨d, hd, rfl⟩ := natRepr_mem i c h
    simp [digitChar_ne_dash d hd]

lemma parse_token_event_dir (i : ℕ) :
    parse_token (event_dir_name i) = List.replicate 5 '0' ++ fmt02d i := by
  rw [parse_token, event_dir_name]
  have hall : ∀ c ∈ (eventStem ++ ['0', '0', '0', '0', '0']) ++ fmt02d i,
      (decide (c ≠ '-')) = true := by
    intro c hc
    rcases List.mem_append.mp hc with h | h
    · fin_cases h <;> decide
    · exact fmt02d_no_dash i c h
  rw [takeWhile_all _ hall, List.append_assoc]
  have hdrop := List.drop_left eventStem (['0', '0', '0', '0', '0'] ++ fmt02d i)
  rw [show eventStem.length = 5 from rfl] at hdrop
  rw [hdrop]
  rfl

/-- Claim C3 (amended): the per-event directory name handed to the loader is
the literal `'event00000'` followed by `i` formatted as a zero-padded 2-digit
decimal, and `int(name.split('-')[0][5:])` — `_event_range`'s parse — always
recovers `i` from it.  The id token of the constructed name coincides with
the 7-digit zero-padded encoding of `i` exactly when `i < 100`, and for
`i < 100` no other width agrees; but agreement is *not* restricted to
"exactly 7 digits and `i < 100`": for `i ≥ 100` the token instead coincides
with the wider `(5 + number-of-decimal-digits)`-digit zero-padded encoding
of `i`. -/
theorem event_dir_name_parse (i : ℕ) :
    (parse_token (event_dir_name i) = leftPad 7 '0' (natRepr i) ↔ i < 100)
  ∧ parse_digits (parse_token (event_dir_name i)) = i
  ∧ (∀ w, i < 100 → w ≠ 7 →
      parse_token (event_dir_name i) ≠ leftPad w '0' (natRepr i))
  ∧ (100 ≤ i →
      parse_token (event_dir_name i) =
        leftPad (5 + (natRepr i).length) '0' (natRepr i)) := by
  have hlen1 := natRepr_length_pos i
  refine ⟨?_, ?_, ?_, ?_⟩
  · rw [parse_token_event_dir]
    constructor
    · intro heq
      by_contra hge
      have h3 : ¬((natRepr i).length ≤ 2) :=
        fun hle => hge ((natRepr_len_le_two_iff i).mp hle)
      have hlen := congrArg List.length heq
      rw [List.length_append, List.length_replicate, fmt02d, leftPad, leftPad,
        List.length_append, List.length_append, List.length_replicate,
        List.length_replicate] at hlen
      omega
    · intro hlt
      have hle : (natRepr i).length ≤ 2 := (natRepr_len_le_two_iff i).mpr hlt
      rw [fmt02d, leftPad, leftPad, ← List.append_assoc, ← List.replicate_add]
      congr 2
      omega
  · rw [parse_token_event_dir, fmt02d, leftPad, ← List.append_assoc,
      ← List.replicate_add, parse_digits_zeros, parse_digits_natRepr]
  · intro w hlt hw heq
    have hle : (natRepr i).length ≤ 2 := (natRepr_len_le_two_iff i).mpr hlt
    rw [parse_token_event_dir] at heq
    have hlen := congrArg List.length heq
    rw [List.length_append, List.length_replicate, fmt02d, leftPad, leftPad,
      List.length_append, List.length_append, List.length_replicate,
      List.length_replicate] at hlen
    omega
  · intro hge
    have h3 : 3 ≤ (natRepr i).length := by
      by_contra hc
      push_neg at hc
      have := (natRepr_len_le_two_iff i).mp (by omega)
      omega
    rw [parse_token_event_dir, fmt02d, leftPad, leftPad,
      show 2 - (natRepr i).length = 0 by omega, List.replicate_zero,
      List.nil_append,
      show 5 + (natRepr i).length - (natRepr i).length = 5 by omega]

lemma digits_hundred : Nat.digits 10 100 = [0, 0, 1] := by
  rw [Nat.digits_def' (by norm_num : (1 : ℕ) < 10) (by norm_num : (0 : ℕ) < 100),
    show (100 : ℕ) % 10 = 0 by norm_num, show (100 : ℕ) / 10 = 10 by norm_num,
    Nat.digits_def' (by norm_num : (1 : ℕ) < 10) (by norm_num : (0 : ℕ) < 10),
    show (10 : ℕ) % 10 = 0 by norm_num, show (10 : ℕ) / 10 = 1 by norm_num,
    Nat.digits_def' (by norm_num : (1 : ℕ) < 10) (by norm_num : (0 : ℕ) < 1),
    show (1 : ℕ) % 10 = 1 by norm_num, show (1 : ℕ) / 10 = 0 by norm_num,
    Nat.digits_zero]

lemma natRepr_hundred : natRepr 100 = ['1', '0', '0'] := by
  rw [natRepr, if_neg (by norm_num : ¬((100 : ℕ) = 0)), digits_hundred]
  decide

/-- Claim C3 (counterexample): at `i = 100` the constructed name's id token
is `'00000100'`, which agrees with the *8*-digit zero-padded encoding of
`100` even though `100 < 100` fails and `8 ≠ 7` — so the constructed name
does not agree with a zero-padded token "only when the archive encodes ids
as exactly 7 zero-padded digits and `i < 100`". -/
theorem event_dir_name_parse_cex :
    parse_token (event_dir_name 100) = leftPad 8 '0' (natRepr 100)
  ∧ ¬(100 < 100) ∧ (8 : ℕ) ≠ 7 := by
  refine ⟨?_, by norm_num, by norm_num⟩
  rw [parse_token_event_dir 100, fmt02d, natRepr_hundred, leftPad, leftPad]
  decide

/-- Claim C3 (witness): the naming theorem applied at `i = 3` with the
mismatched width `w = 6`. -/
theorem event_dir_name_parse_witness :
    parse_token (event_dir_name 3) ≠ leftPad 6 '0' (natRepr 3) :=
  (event_dir_name_parse 3).2.2.1 6 (by norm_num) (by norm_num)

/-! ## Claim C10 — archive range discovery -/

lemma lexLe_refl : ∀ s : List Char, lexLe s s = true := by
  intro s
  induction s with
  | nil => rfl
  | cons a t ih => rw [lexLe, if_neg (lt_irrefl a), if_pos rfl]; exact ih

lemma lexLe_total : ∀ s t : List Char, lexLe s t = true ∨ lexLe t s = true := by
  intro s
  induction s with
  | nil => intro t; exact Or.inl rfl
  | cons a s' ih =>
    intro t
    cases t with
    | nil => exact Or.inr rfl
    | cons b t' =>
      rcases lt_trichotomy a b with hab | hab | hab
      · left; rw [lexLe, if_pos hab]
      · subst hab
        rcases ih t' with h | h
        · left; rw [lexLe, if_neg (lt_irrefl a), if_pos rfl]; exact h
        · right; rw [lexLe, if_neg (lt_irrefl a), if_pos rfl]; exact h
      · right; rw [lexLe, if_pos hab]

lemma lexLe_trans : ∀ s t u : List Char,
    lexLe s t = true → lexLe t u = true → lexLe s u = true := by
  intro s
  induction s with
  | nil => intro t u _ _; rfl
  | cons a s' ih =>
    intro t u hst htu
    cases t with
    | nil => rw [lexLe] at hst; cases hst
    | cons b t' =>
      cases u with
      | nil => rw [lexLe] at htu; cases htu
      | cons c u' =>
        rw [lexLe] at hst htu ⊢
        by_cases hab : a < b
        · by_cases hbc : b < c
          · rw [if_pos (lt_trans hab hbc)]
          · rw [if_neg hbc] at htu
            by_cases hbc' : b = c
            · subst hbc'; rw [if_pos hab]
            · rw [if_neg hbc'] at htu; cases htu
        · rw [if_neg hab] at hst
          by_cases hab' : a = b
          · subst hab'
            rw [if_pos rfl] at hst
            by_cases hac : a < c
            · rw [if_pos hac]
            · rw [if_neg hac] at htu ⊢
              by_cases hac' : a = c
              · rw [if_pos hac'] at htu ⊢
                exact ih t' u' hst htu
              · rw [if_neg hac'] at htu ⊢; exact htu
          · rw [if_neg hab'] at hst; cases hst

lemma lexLe_append_same : ∀ (x a b : List Char),
    lexLe (x ++ a) (x ++ b) = lexLe a b := by
  intro x
  induction x with
  | nil => intro a b; rfl
  | cons c t ih =>
    intro a b
    rw [List.cons_append, List.cons_append, lexLe, if_neg (lt_irrefl c),
      if_pos rfl]
    exact ih a b

lemma digitChar_lt_iff (a b : ℕ) (ha : a < 10) (hb : b < 10) :
    (digitChar a < digitChar b) ↔ a < b := by
  interval_cases a <;> interval_cases b <;> simp <;> decide

lemma padNum_mem (w : ℕ) : ∀ i, i < 10 ^ w →
    ∀ c ∈ padNum w i, ∃ d, d < 10 ∧ c = digitChar d := by
  induction w with
  | zero => intro i _ c hc; cases hc
  | succ v ih =>
    intro i hi c hc
    rw [padNum] at hc
    rcases List.mem_cons.mp hc with h | h
    · refine ⟨i / 10 ^ v, ?_, h⟩
      rw [Nat.div_lt_iff_lt_mul (Nat.pos_pow_of_pos v (by norm_num))]
      rw [pow_succ, Nat.mul_comm] at hi
      exact hi
    · exact ih (i % 10 ^ v) (Nat.mod_lt i (Nat.pos_pow_of_pos v (by norm_num)))
        c h

lemma foldl_padNum (w : ℕ) : ∀ i, i < 10 ^ w → ∀ acc : ℕ,
    List.foldl (fun a c => 10 * a + (c.toNat - 48)) acc (padNum w i) =
      acc * 10 ^ w + i := by
  induction w with
  | zero =>
    intro i hi acc
    interval_cases i
    simp [padNum]
  | succ v ih =>
    intro i hi acc
    have hq : i / 10 ^ v < 10 := by
      rw [Nat.div_lt_iff_lt_mul (Nat.pos_pow_of_pos v (by norm_num))]
      rw [pow_succ, Nat.mul_comm] at hi
      exact hi
    have hr : i % 10 ^ v < 10 ^ v :=
      Nat.mod_lt i (Nat.pos_pow_of_pos v (by norm_num))
    rw [padNum, List.foldl_cons, digitChar_toNat _ hq,
      Nat.add_sub_cancel_left, ih (i % 10 ^ v) hr _]
    have hdm := Nat.div_add_mod i (10 ^ v)
    rw [pow_succ]
    generalize hgen : i / 10 ^ v = q at hdm ⊢
    generalize hgen2 : i % 10 ^ v = r at hdm ⊢
    rw [← hdm]
    ring

lemma padNum_no_dash (w : ℕ) (i : ℕ) (hi : i < 10 ^ w) :
    ∀ c ∈ padNum w i, (decide (c ≠ '-')) = true := by
  intro c hc
  obtain ⟨d, hd, rfl⟩ := padNum_mem w i hi c hc
  simp [digitChar_ne_dash d hd]

lemma takeWhile_append_stop {p : Char → Bool} (xs : List Char) (c : Char)
    (ys : List Char) (hall : ∀ x ∈ xs, p x = true) (hc : p c = false) :
    (xs ++ c :: ys).takeWhile p = xs := by
  induction xs with
  | nil => simp [List.takeWhile_cons, hc]
  | cons a t ih =>
    rw [List.cons_append, List.takeWhile_cons, hall a (List.mem_cons_self a t)]
    rw [ih (fun x hx => hall x (List.mem_cons_of_mem a hx))]
    simp

lemma parse_token_render (w : ℕ) (f : EventFile) (hf : f.id < 10 ^ w) :
    parse_token (renderName w f) = padNum w f.id := by
  rw [parse_token, renderName, List.append_assoc]
  have hall : ∀ x ∈ eventStem ++ padNum w f.id, (decide (x ≠ '-')) = true := by
    intro x hx
    rcases List.mem_append.mp hx with h | h
    · fin_cases h <;> decide
    · exact padNum_no_dash w f.id hf x h
  rw [← List.append_assoc,
    takeWhile_append_stop (eventStem ++ padNum w f.id) '-' f.suffix hall
      (by decide)]
  have hdrop := List.drop_left eventStem (padNum w f.id)
  rw [show eventStem.length = 5 from rfl] at hdrop
  exact hdrop

lemma parse_render (w : ℕ) (f : EventFile) (hf : f.id < 10 ^ w) :
    parse_digits (parse_token (renderName w f)) = f.id := by
  rw [parse_token_render w f hf, parse_digits, foldl_padNum w f.id hf 0,
    Nat.zero_mul, Nat.zero_add]

lemma lexLt_padNum (w : ℕ) : ∀ i j (s t : List Char), i < j → j < 10 ^ w →
    lexLe (padNum w i ++ s) (padNum w j ++ t) = true ∧
    lexLe (padNum w j ++ t) (padNum w i ++ s) = false := by
  induction w with
  | zero => intro i j s t hij hj; simp at hj; omega
  | succ v ih =>
    intro i j s t hij hj
    have hqj : j / 10 ^ v < 10 := by
      rw [Nat.div_lt_iff_lt_mul (Nat.pos_pow_of_pos v (by norm_num))]
      rw [pow_succ, Nat.mul_comm] at hj
      exact hj
    have hqij : i / 10 ^ v ≤ j / 10 ^ v := Nat.div_le_div_right (le_of_lt hij)
    have hqi : i / 10 ^ v < 10 := lt_of_le_of_lt hqij hqj
    rw [padNum, padNum, List.cons_append, List.cons_append]
    rcases lt_or_eq_of_le hqij with hlt | heq
    · have hclt : digitChar (i / 10 ^ v) < digitChar (j / 10 ^ v) :=
        (digitChar_lt_iff _ _ hqi hqj).mpr hlt
      constructor
      · rw [lexLe, if_pos hclt]
      · rw [lexLe, if_neg (lt_asymm hclt), if_neg (ne_of_gt hclt)]
    · have hri : 10 ^ v * (i / 10 ^ v) + i % 10 ^ v = i := Nat.div_add_mod i _
      have hrj : 10 ^ v * (j / 10 ^ v) + j % 10 ^ v = j := Nat.div_add_mod j _
      rw [← heq] at hrj
      have hrlt : i % 10 ^ v < j % 10 ^ v := by
        generalize 10 ^ v * (i / 10 ^ v) = P at hri hrj
        omega
      have hrj10 : j % 10 ^ v < 10 ^ v :=
        Nat.mod_lt j (Nat.pos_pow_of_pos v (by norm_num))
      obtain ⟨h1, h2⟩ := ih (i % 10 ^ v) (j % 10 ^ v) s t hrlt hrj10
      rw [heq]
      constructor
      · rw [lexLe, if_neg (lt_irrefl _), if_pos rfl]; exact h1
      · rw [lexLe, if_neg (lt_irrefl _), if_pos rfl]; exact h2

lemma renderName_lt (w : ℕ) (f g : EventFile) (hfg : f.id < g.id)
    (hg : g.id < 10 ^ w) :
    lexLe (renderName w f) (renderName w g) = true ∧
    lexLe (renderName w g) (renderName w f) = false := by
  rw [renderName, renderName, List.append_assoc, List.append_assoc,
    lexLe_append_same, lexLe_append_same]
  exact lexLt_padNum w f.id g.id ('-' :: f.suffix) ('-' :: g.suffix) hfg hg

lemma sorted_lexLeP_getLast :
    ∀ (l : List (List Char)), List.Sorted lexLeP l →
      ∀ (hne : l ≠ []), ∀ y ∈ l, lexLeP y (l.getLast hne) := by
  intro l
  induction l with
  | nil => intro _ hne; exact absurd rfl hne
  | cons a t ih =>
    intro hl hne y hy
    cases t with
    | nil =>
      have hya : y = a := List.mem_singleton.mp hy
      subst hya
      exact lexLe_refl y
    | cons b t' =>
      rw [List.getLast_cons (List.cons_ne_nil b t')]
      rcases List.mem_cons.mp hy with heq | hy'
      · subst heq
        exact List.rel_of_sorted_cons hl _ (List.getLast_mem _)
      · exact ih hl.of_cons (List.cons_ne_nil b t') y hy'

/-- Claim C10: archive-range discovery sorts the listing lexically, parses
the ids of the first and last entries and returns `[start, max + 1)`; over a
well-formed archive (fixed-width zero-padded ids) the result satisfies
`start = min(id)`, `end = max(id) + 1`, and the call raises if and only if
the listing is empty, in which case no range is produced. -/
theorem event_range_correct (w : ℕ) (files : List EventFile)
    (hids : ∀ f ∈ files, f.id < 10 ^ w) :
    (event_range (files.map (renderName w)) = Except.error () ↔ files = [])
  ∧ (∀ s e, event_range (files.map (renderName w)) = Except.ok (s, e) →
      (∃ f ∈ files, f.id = s) ∧ (∃ f ∈ files, f.id + 1 = e)
      ∧ ∀ f ∈ files, s ≤ f.id ∧ f.id + 1 ≤ e) := by
  have hperm : List.Perm
      (List.insertionSort lexLeP (files.map (renderName w)))
      (files.map (renderName w)) := List.perm_insertionSort _ _
  haveI htotal : IsTotal (List Char) lexLeP := ⟨fun a b => lexLe_total a b⟩
  haveI htrans : IsTrans (List Char) lexLeP := ⟨fun a b c => lexLe_trans a b c⟩
  have hsorted : List.Sorted lexLeP
      (List.insertionSort lexLeP (files.map (renderName w))) :=
    List.sorted_insertionSort lexLeP _
  cases hs : List.insertionSort lexLeP (files.map (renderName w)) with
  | nil =>
    rw [hs] at hperm
    have hfiles : files = [] := List.map_eq_nil_iff.mp hperm.symm.eq_nil
    have hres : event_range (files.map (renderName w)) = Except.error () := by
      unfold event_range
      rw [hs]
    refine ⟨⟨fun _ => hfiles, fun _ => hres⟩, ?_⟩
    intro s e hok
    rw [hres] at hok
    cases hok
  | cons hd rest =>
    rw [hs] at hperm hsorted
    have hne_sort : hd :: rest ≠ [] := List.cons_ne_nil hd rest
    have hres : event_range (files.map (renderName w)) =
        Except.ok (parse_digits (parse_token hd),
          parse_digits (parse_token
            ((hd :: rest).getLast (List.cons_ne_nil hd rest))) + 1) := by
      unfold event_range
      rw [hs]
    have hmem_sort : ∀ y, y ∈ hd :: rest ↔ y ∈ files.map (renderName w) :=
      fun y => hperm.mem_iff
    obtain ⟨f0, hf0mem, hf0⟩ :=
      List.mem_map.mp ((hmem_sort hd).mp (List.mem_cons_self hd rest))
    obtain ⟨f1, hf1mem, hf1⟩ :=
      List.mem_map.mp ((hmem_sort _).mp
        (List.getLast_mem (List.cons_ne_nil hd rest)))
    have hparse0 : parse_digits (parse_token hd) = f0.id := by
      rw [← hf0]; exact parse_render w f0 (hids f0 hf0mem)
    have hparse1 : parse_digits (parse_token
        ((hd :: rest).getLast (List.cons_ne_nil hd rest))) = f1.id := by
      rw [← hf1]; exact parse_render w f1 (hids f1 hf1mem)
    have hmin : ∀ f ∈ files, f0.id ≤ f.id := by
      intro f hf
      by_contra hcon
      push_neg at hcon
      have hpair := renderName_lt w f f0 hcon (hids f0 hf0mem)
      have hmem : renderName w f ∈ hd :: rest :=
        (hmem_sort _).mpr (List.mem_map_of_mem _ hf)
      have hle : lexLe (renderName w f0) (renderName w f) = true := by
        rcases List.mem_cons.mp hmem with heq | hmem'
        · rw [hf0, heq]; exact lexLe_refl hd
        · have := List.rel_of_sorted_cons hsorted _ hmem'
          rw [← hf0] at this
          exact this
      rw [hpair.2] at hle
      cases hle
    have hmax : ∀ f ∈ files, f.id ≤ f1.id := by
      intro f hf
      by_contra hcon
      push_neg at hcon
      have hpair := renderName_lt w f1 f hcon (hids f hf)
      have hmem : renderName w f ∈ hd :: rest :=
        (hmem_sort _).mpr (List.mem_map_of_mem _ hf)
      have hle : lexLe (renderName w f) (renderName w f1) = true := by
        have := sorted_lexLeP_getLast (hd :: rest) hsorted
          (List.cons_ne_nil hd rest) _ hmem
        rw [← hf1] at this
        exact this
      rw [hpair.2] at hle
      cases hle
    refine ⟨⟨?_, ?_⟩, ?_⟩
    · intro habs
      rw [hres] at habs
      cases habs
    · intro habs
      rw [habs] at hf0mem
      cases hf0mem
    · intro s e hok
      rw [hres] at hok
      have h := hok
      simp only [Except.ok.injEq, Prod.mk.injEq] at h
      obtain ⟨hs', he'⟩ := h
      refine ⟨⟨f0, hf0mem, ?_⟩, ⟨f1, hf1mem, ?_⟩, ?_⟩
      · rw [← hs', hparse0]
      · rw [← he', hparse1]
      · intro f hf
        constructor
        · rw [← hs', hparse0]
          exact hmin f hf
        · rw [← he', hparse1]
          exact Nat.succ_le_succ (hmax f hf)

/-- Claim C10 (witness): the discovery theorem applied to a concrete archive
of two files with 7-digit zero-padded ids 3 and 1, whose discovered range is
`[1, 4)`. -/
theorem event_range_witness :
    ∃ f ∈ ([⟨3, ['h']⟩, ⟨1, ['h']⟩] : List EventFile), f.id = 1 :=
  ((event_range_correct 7 [⟨3, ['h']⟩, ⟨1, ['h']⟩] (by decide)).2 1 4
    (by rfl)).1
